import Mathlib

/-
  Verification development for the graph construction core of
  valhalla/mjolnir (graphbuilder.h).

  The data model (Edge, Node, their packed attribute blocks) is embedded
  from src/valhalla/mjolnir/graphbuilder.h.  Bitfield stores are modelled
  as reduction modulo 2^width; one-bit flags assigned from C++ bools are
  modelled as Bool.  Member functions whose bodies live in the (absent)
  graphbuilder.cc are modelled from the specification and carry a doc
  comment starting with: Modelled from the spec.
-/

set_option autoImplicit false

namespace Valhalla

/-- Graph identifier: (hierarchy level, tile id, index within tile),
    embedding baldr::GraphId as used by graphbuilder.h. -/
structure GraphId where
  level : Nat
  tileid : Nat
  id : Nat
  deriving DecidableEq

/-- Value-initialized (default) GraphId. -/
def GraphId.default : GraphId := ⟨0, 0, 0⟩

/-- Packed edge attribute block (struct EdgeAttributes, graphbuilder.h).
    Multi-bit fields are Nat reduced modulo 2^width on store; one-bit
    fields written from C++ bools are Bool. -/
structure EdgeAttributes where
  llcount : Nat
  importanceBits : Nat
  driveableforward : Bool
  driveablereverse : Bool
  traffic_signal : Bool
  forward_signal : Bool
  backward_signal : Bool
  link : Bool
  spare : Nat
  deriving DecidableEq

/-- Zero-initialized attribute block (value initialization of the
    aggregate in make_edge). -/
def EdgeAttributes.default : EdgeAttributes :=
  ⟨0, 0, false, false, false, false, false, false, 0⟩

/-- Store into the 16-bit llcount bitfield: keep the low 16 bits. -/
def EdgeAttributes.set_llcount (a : EdgeAttributes) (v : Nat) : EdgeAttributes :=
  { a with llcount := v % 65536 }

/-- Store into the 3-bit importance bitfield: keep the low 3 bits. -/
def EdgeAttributes.set_importance (a : EdgeAttributes) (v : Nat) : EdgeAttributes :=
  { a with importanceBits := v % 8 }

/-- Read accessor for the importance bitfield. -/
def EdgeAttributes.importance (a : EdgeAttributes) : Nat :=
  a.importanceBits

/-- The way attributes read by Edge::make_edge.  Modelled from the spec:
    osmway.h is not part of the sources; a way carries a road-class rank
    (3-bit ordinal, smaller = more important), the two driveability
    flags and the link (ramp) flag. -/
structure OSMWay where
  road_class : Nat
  auto_forward : Bool
  auto_backward : Bool
  link : Bool
  deriving DecidableEq

/-- An edge in the graph (struct Edge, graphbuilder.h). -/
structure Edge where
  sourcenode_ : GraphId
  wayindex_ : Nat
  llindex_ : Nat
  attributes : EdgeAttributes
  targetnode_ : GraphId
  deriving DecidableEq

/-- Edge::make_edge: aggregate-initializes the first three members
    (value-initializing attributes and targetnode_), then assigns
    llcount, importance, driveableforward, driveablereverse and link
    through the bitfields. -/
def Edge.make_edge (sourcenode : GraphId) (wayindex : Nat) (llindex : Nat)
    (way : OSMWay) : Edge :=
  let a1 := EdgeAttributes.default.set_llcount 1
  let a2 := a1.set_importance way.road_class
  let a3 := { a2 with driveableforward := way.auto_forward }
  let a4 := { a3 with driveablereverse := way.auto_backward }
  let a5 := { a4 with link := way.link }
  { sourcenode_ := sourcenode, wayindex_ := wayindex, llindex_ := llindex,
    attributes := a5, targetnode_ := GraphId.default }

/-- A default edge record, used as the out-of-range placeholder when
    indexing the edge sequence. -/
def Edge.default : Edge :=
  ⟨GraphId.default, 0, 0, EdgeAttributes.default, GraphId.default⟩

/-- Node attribute block.  Modelled from the accessors graphbuilder.h
    uses on it (osmnode.h is not part of the sources): link-edge /
    non-link-edge flags, exit-to / ref / name presence flags, access
    mask, node type and traffic-signal flag. -/
structure NodeAttributes where
  link_edge : Bool
  non_link_edge : Bool
  exit_to : Bool
  ref : Bool
  name : Bool
  access_mask : Nat
  type : Nat
  traffic_signal : Bool
  deriving DecidableEq

/-- Zero-initialized node attributes (attributes{} in Node::Node). -/
def NodeAttributes.default : NodeAttributes :=
  ⟨false, false, false, false, false, 0, 0, false⟩

/-- Node within the graph (struct Node, graphbuilder.h): the ordered
    list of incident edge indices plus the attribute block. -/
structure Node where
  edges : List Nat
  attributes : NodeAttributes
  deriving DecidableEq

/-- Default constructor Node(): empty edge list, zeroed attributes. -/
def Node.default : Node :=
  { edges := [], attributes := NodeAttributes.default }

/-- Node::AddEdge: set the link or non-link flag according to the link
    argument and append the edge index at the back of the list. -/
def Node.AddEdge (n : Node) (edgeindex : Nat) (link : Bool) : Node :=
  { edges := n.edges ++ [edgeindex],
    attributes :=
      if link then { n.attributes with link_edge := true }
      else { n.attributes with non_link_edge := true } }

/-- Constructor Node(attr, edgeindex, link): start from the given
    attributes and an empty edge list, then AddEdge. -/
def Node.make (attr : NodeAttributes) (edgeindex : Nat) (link : Bool) : Node :=
  (Node.mk [] attr).AddEdge edgeindex link

/-- Node::edge_count. -/
def Node.edge_count (n : Node) : Nat :=
  n.edges.length

/-- Node::link_edge accessor. -/
def Node.link_edge (n : Node) : Bool :=
  n.attributes.link_edge

/-- Node::non_link_edge accessor. -/
def Node.non_link_edge (n : Node) : Bool :=
  n.attributes.non_link_edge

/-- A sequence of AddEdge calls applied in order, each call a pair of
    edge index and link flag. -/
def Node.applyAddEdges (n : Node) (calls : List (Nat × Bool)) : Node :=
  calls.foldl (fun m c => m.AddEdge c.1 c.2) n

/-- The node data read by AddNodeToTile.  Modelled from the spec:
    osmnode.h is not part of the sources; a source node carries its
    attribute block, and tile assignment is a pure function of its
    coordinate, so the computed tile identifier is carried directly. -/
structure OSMNode where
  tileid : Nat
  attributes : NodeAttributes
  deriving DecidableEq

/-- The GraphBuilder state touched by node creation: the hierarchy
    level being built, the dedup map nodes_ from source (OSM) node id
    to GraphId, and the per-tile node table tilednodes_. -/
structure GraphBuilderState where
  level_ : Nat
  nodes_ : Nat → Option GraphId
  tilednodes_ : Nat → List Node

/-- Modelled from the spec: GraphBuilder::AddNodeToTile.  If the source
    node id is already in the dedup map, reuse the stored GraphId and
    append the edge to that Node; otherwise create the Node in its tile
    (index = current tile list length), record the mapping and return
    the freshly allocated GraphId. -/
def AddNodeToTile (g : GraphBuilderState) (osmnodeid : Nat) (osmnode : OSMNode)
    (edgeindex : Nat) (link : Bool) : GraphId × GraphBuilderState :=
  match g.nodes_ osmnodeid with
  | some id =>
      let tl := g.tilednodes_ id.tileid
      let updated := tl.set id.id ((tl[id.id]?.getD Node.default).AddEdge edgeindex link)
      (id, { g with
              tilednodes_ := fun t => if t = id.tileid then updated else g.tilednodes_ t })
  | none =>
      let tl := g.tilednodes_ osmnode.tileid
      let id : GraphId := ⟨g.level_, osmnode.tileid, tl.length⟩
      let newnode := Node.make osmnode.attributes edgeindex link
      (id, { g with
              nodes_ := fun k => if k = osmnodeid then some id else g.nodes_ k,
              tilednodes_ := fun t =>
                if t = osmnode.tileid then tl ++ [newnode] else g.tilednodes_ t })

/-- Modelled from the spec: GraphBuilder::GetNode looks the node up in
    its tile's node list by the index stored in the GraphId. -/
def GetNode (g : GraphBuilderState) (id : GraphId) : Node :=
  (g.tilednodes_ id.tileid)[id.id]?.getD Node.default

/-- Modelled from the spec: translate one restriction (a sequence of
    source node ids) through the dedup map; any missing endpoint makes
    the whole translation fail. -/
def translateRestriction (m : Nat → Option GraphId) : List Nat → Option (List GraphId)
  | [] => some []
  | x :: xs =>
      match m x with
      | none => none
      | some gid =>
          match translateRestriction m xs with
          | none => none
          | some gids => some (gid :: gids)

/-- Modelled from the spec: GraphBuilder::UpdateRestrictions.  Each
    restriction whose every endpoint maps through the dedup map is
    emitted keyed by graph identifiers; one that fails to map is
    dropped and counted once as a data-quality defect. -/
def UpdateRestrictions (m : Nat → Option GraphId) (rs : List (List Nat)) :
    List (List GraphId) × Nat :=
  rs.foldl (fun acc r =>
    match translateRestriction m r with
    | some gr => (acc.1 ++ [gr], acc.2)
    | none => (acc.1, acc.2 + 1)) ([], 0)

/-- Modelled from the spec: sentinel road class, larger than any value
    a 3-bit importance field can hold. -/
def kAbsurdRoadClass : Nat := 8

/-- One step of the best-class scan: a non-link edge lowers the running
    best to its importance, anything else leaves it. -/
def bestStep (edges : List Edge) (best : Nat) (idx : Nat) : Nat :=
  match edges[idx]? with
  | some e => if e.attributes.link then best else min best e.attributes.importance
  | none => best

/-- Modelled from the spec: GraphBuilder::GetBestNonLinkClass scans the
    node's incident edges and takes the minimum importance among those
    whose link flag is false. -/
def GetBestNonLinkClass (node : Node) (edges : List Edge) : Nat :=
  node.edges.foldl (bestStep edges) kAbsurdRoadClass

/-- Modelled from the spec: the link reclassifier's view of the graph,
    one tile of nodes (node identifiers are list indices) plus the edge
    sequence. -/
structure LinkGraph where
  nodes : List Node
  edges : List Edge
  deriving DecidableEq

/-- Node lookup by identifier. -/
def nodeOf (g : LinkGraph) (j : Nat) : Node :=
  g.nodes[j]?.getD Node.default

/-- Whether edge index i denotes a link-flagged edge of the sequence. -/
def isLink (edges : List Edge) (i : Nat) : Bool :=
  match edges[i]? with
  | some e => e.attributes.link
  | none => false

/-- Importance of edge index i (default edge when out of range). -/
def impOf (edges : List Edge) (i : Nat) : Nat :=
  (edges[i]?.getD Edge.default).attributes.importance

/-- The endpoint of edge e other than node n. -/
def otherEnd (g : LinkGraph) (e : Nat) (n : Nat) : Nat :=
  match g.edges[e]? with
  | some ed => if ed.sourcenode_.id = n then ed.targetnode_.id else ed.sourcenode_.id
  | none => n

/-- The continuation edge of a chain walk: the first incident link edge
    other than the edge the walk arrived by. -/
def nextLinkEdge (edges : List Edge) (node : Node) (prevEdge : Nat) : Option Nat :=
  node.edges.find? (fun i => (i != prevEdge) && isLink edges i)

/-- Result of a bounded chain walk: the traversed link-edge indices and
    the end node when a node with non-link edges is reached, a dead end
    when the chain stops early, or exhaustion of the depth bound. -/
inductive ChainResult where
  | found : List Nat → Nat → ChainResult
  | deadEnd : ChainResult
  | exhausted : ChainResult
  deriving DecidableEq

/-- Whether a ChainResult is a found chain. -/
def ChainResult.isFound : ChainResult → Bool
  | ChainResult.found _ _ => true
  | _ => false

/-- The traversed edges of a found chain (empty otherwise). -/
def ChainResult.foundEdges : ChainResult → List Nat
  | ChainResult.found es _ => es
  | _ => []

/-- Modelled from the spec: the bounded link-chain walk.  From the node
    reached by prevEdge, stop successfully at a node with non-link
    edges, continue along the next link edge otherwise, and report
    exhaustion when the depth bound runs out. -/
def walkChain (g : LinkGraph) : Nat → Nat → Nat → ChainResult
  | 0, _, _ => ChainResult.exhausted
  | fuel + 1, prevEdge, curNode =>
      if (nodeOf g curNode).attributes.non_link_edge then ChainResult.found [] curNode
      else
        match nextLinkEdge g.edges (nodeOf g curNode) prevEdge with
        | none => ChainResult.deadEnd
        | some e =>
            match walkChain g fuel e (otherEnd g e curNode) with
            | ChainResult.found es endn => ChainResult.found (e :: es) endn
            | r => r

/-- Modelled from the spec: walk the chain that leaves junction j along
    incident link edge e0; the traversed chain includes e0 itself. -/
def chainFrom (g : LinkGraph) (fuel : Nat) (j : Nat) (e0 : Nat) : ChainResult :=
  match walkChain g fuel e0 (otherEnd g e0 j) with
  | ChainResult.found es endn => ChainResult.found (e0 :: es) endn
  | r => r

/-- The better (smaller) of the best non-link classes at the two ends
    of a chain. -/
def bestPair (g : LinkGraph) (j : Nat) (endn : Nat) : Nat :=
  min (GetBestNonLinkClass (nodeOf g j) g.edges)
      (GetBestNonLinkClass (nodeOf g endn) g.edges)

/-- Set edge i's importance to the better of its current value and c,
    through the 3-bit bitfield store. -/
def updateEdgeImp (edges : List Edge) (i : Nat) (c : Nat) : List Edge :=
  match edges[i]? with
  | some e =>
      edges.set i
        { e with attributes := e.attributes.set_importance (min e.attributes.importance c) }
  | none => edges

/-- Apply updateEdgeImp to every edge of a chain. -/
def updateImps (edges : List Edge) (c : Nat) : List Nat → List Edge
  | [] => edges
  | i :: is => updateImps (updateEdgeImp edges i c) c is

/-- Modelled from the spec: process the chains leaving junction j along
    each of its incident link edges in order.  A found chain has every
    traversed edge's importance improved to the better of the classes
    at the chain's two ends; a dead end changes nothing; an exhausted
    depth bound changes nothing and counts a data-quality warning. -/
def processChains (fuel : Nat) (j : Nat) : LinkGraph × Nat → List Nat → LinkGraph × Nat
  | gc, [] => gc
  | gc, e0 :: rest =>
      match chainFrom gc.1 fuel j e0 with
      | ChainResult.found es endn =>
          processChains fuel j
            ({ gc.1 with edges := updateImps gc.1.edges (bestPair gc.1 j endn) es }, gc.2) rest
      | ChainResult.deadEnd => processChains fuel j gc rest
      | ChainResult.exhausted => processChains fuel j (gc.1, gc.2 + 1) rest

/-- Whether node j is a junction where a ramp meets a through road:
    both the link-edge and the non-link-edge flag are set. -/
def isJunctionB (g : LinkGraph) (j : Nat) : Bool :=
  (nodeOf g j).attributes.link_edge && (nodeOf g j).attributes.non_link_edge

/-- Modelled from the spec: reclassification step for one node — only
    junctions with both flags set are processed, over their incident
    link edges. -/
def processJunction (fuel : Nat) (gc : LinkGraph × Nat) (j : Nat) : LinkGraph × Nat :=
  if isJunctionB gc.1 j then
    processChains fuel j gc ((nodeOf gc.1 j).edges.filter (fun i => isLink gc.1.edges i))
  else gc

/-- Modelled from the spec: GraphBuilder::ReclassifyLinks — process
    every node in order; returns the corrected graph and the number of
    depth-bound data-quality warnings. -/
def ReclassifyLinks (fuel : Nat) (g : LinkGraph) : LinkGraph × Nat :=
  (List.range g.nodes.length).foldl (processJunction fuel) (g, 0)

/-- Two edges agree on every field other than the stored importance,
    and on the importance as well when the edge is not a link. -/
def edgeSameShape (e e' : Edge) : Prop :=
  e.sourcenode_ = e'.sourcenode_ ∧ e.targetnode_ = e'.targetnode_ ∧
  e.wayindex_ = e'.wayindex_ ∧ e.llindex_ = e'.llindex_ ∧
  e.attributes.llcount = e'.attributes.llcount ∧
  e.attributes.driveableforward = e'.attributes.driveableforward ∧
  e.attributes.driveablereverse = e'.attributes.driveablereverse ∧
  e.attributes.traffic_signal = e'.attributes.traffic_signal ∧
  e.attributes.forward_signal = e'.attributes.forward_signal ∧
  e.attributes.backward_signal = e'.attributes.backward_signal ∧
  e.attributes.link = e'.attributes.link ∧
  e.attributes.spare = e'.attributes.spare ∧
  (e.attributes.link = false → e.attributes.importance = e'.attributes.importance)

/-- Graph skeleton equality: identical nodes, same number of edges, and
    every edge unchanged except possibly the importance of link edges. -/
def SkelEq (g g' : LinkGraph) : Prop :=
  g.nodes = g'.nodes ∧ g.edges.length = g'.edges.length ∧
  ∀ (i : Nat) (e e' : Edge),
    g.edges[i]? = some e → g'.edges[i]? = some e' → edgeSameShape e e'

/-- Every chain walk out of a junction fails to find a non-link end
    within the depth bound. -/
def NoChainFound (fuel : Nat) (g : LinkGraph) : Prop :=
  ∀ j ∈ List.range g.nodes.length, isJunctionB g j = true →
    ∀ e0 ∈ (nodeOf g j).edges.filter (fun i => isLink g.edges i),
      (chainFrom g fuel j e0).isFound = false

/-- Some chain walk out of a junction exhausts the depth bound. -/
def SomeChainExhausted (fuel : Nat) (g : LinkGraph) : Prop :=
  ∃ j ∈ List.range g.nodes.length, isJunctionB g j = true ∧
    ∃ e0 ∈ (nodeOf g j).edges.filter (fun i => isLink g.edges i),
      chainFrom g fuel j e0 = ChainResult.exhausted

/-- Edge i lies on no chain that any junction walk can complete within
    the depth bound — in particular on every link chain longer than the
    bound this holds for each of its edges. -/
def EdgeUnreached (fuel : Nat) (g : LinkGraph) (i : Nat) : Prop :=
  ∀ j ∈ List.range g.nodes.length, isJunctionB g j = true →
    ∀ e0 ∈ (nodeOf g j).edges.filter (fun k => isLink g.edges k),
      ¬ i ∈ (chainFrom g fuel j e0).foundEdges

/-- Every found chain out of junction j along e0 already has all its
    edges at or below the best class of the chain's two ends (and below
    the 3-bit bound). -/
def ChainProp (fuel : Nat) (g : LinkGraph) (j e0 : Nat) : Prop :=
  ∀ es endn, chainFrom g fuel j e0 = ChainResult.found es endn →
    ∀ i ∈ es, impOf g.edges i ≤ bestPair g j endn ∧ impOf g.edges i < 8

/-- ChainProp for every incident link edge of node j, when j is a
    junction. -/
def JStable (fuel : Nat) (g : LinkGraph) (j : Nat) : Prop :=
  isJunctionB g j = true →
    ∀ e0 ∈ (nodeOf g j).edges.filter (fun i => isLink g.edges i),
      ChainProp fuel g j e0

/-- A graph on which reclassification is a fixed point. -/
def Stable (fuel : Nat) (g : LinkGraph) : Prop :=
  ∀ j, JStable fuel g j

/-- Empty builder state used as a concrete witness input. -/
def exG0 : GraphBuilderState :=
  ⟨0, fun _ => none, fun _ => []⟩

/-- Concrete source node used as a witness input. -/
def exOsmNode : OSMNode :=
  ⟨7, NodeAttributes.default⟩

/-- Concrete way used as a witness input. -/
def exWay : OSMWay :=
  ⟨2, true, false, true⟩

/-- Concrete non-link edge of importance 2 used as a witness input. -/
def exEdgeC3 : Edge :=
  { sourcenode_ := GraphId.default, wayindex_ := 0, llindex_ := 0,
    attributes := { EdgeAttributes.default with importanceBits := 2 },
    targetnode_ := GraphId.default }

/-- Concrete one-edge sequence used as a witness input. -/
def exEdgesC3 : List Edge :=
  [exEdgeC3]

/-- Concrete node incident to edge 0 used as a witness input. -/
def exNodeC3 : Node :=
  ⟨[0], NodeAttributes.default⟩

/-- Helper to build a concrete edge between node ids s and t. -/
def mkEdge (s t imp : Nat) (lnk : Bool) : Edge :=
  { sourcenode_ := ⟨0, 0, s⟩, wayindex_ := 0, llindex_ := 0,
    attributes := { EdgeAttributes.default with importanceBits := imp, link := lnk },
    targetnode_ := ⟨0, 0, t⟩ }

/-- Helper to build node attributes with the two ramp flags. -/
def mkNodeAttr (l nl : Bool) : NodeAttributes :=
  ⟨l, nl, false, false, false, 0, 0, false⟩

/-- Concrete graph with a three-edge link chain between two junctions,
    used as a witness input: with depth bound 1 every walk exhausts. -/
def exChainG : LinkGraph :=
  { nodes := [
      ⟨[0, 3, 4], mkNodeAttr true true⟩,
      ⟨[0, 1], mkNodeAttr true false⟩,
      ⟨[1, 2], mkNodeAttr true false⟩,
      ⟨[2, 5], mkNodeAttr true true⟩,
      ⟨[3], mkNodeAttr false true⟩,
      ⟨[4], mkNodeAttr false true⟩,
      ⟨[5], mkNodeAttr false true⟩],
    edges := [
      mkEdge 0 1 7 true,
      mkEdge 1 2 7 true,
      mkEdge 2 3 7 true,
      mkEdge 0 4 2 false,
      mkEdge 0 5 4 false,
      mkEdge 3 6 1 false] }

section ListHelpers

variable {α : Type _}

theorem list_set_concat (l : List α) (a b : α) : (l ++ [a]).set l.length b = l ++ [b] := by
  induction l with
  | nil => rfl
  | cons x xs ih =>
      show x :: ((xs ++ [a]).set xs.length b) = x :: (xs ++ [b])
      rw [ih]

theorem list_set_getElem?_self {l : List α} {i : Nat} {a : α} (h : l[i]? = some a) :
    l.set i a = l := by
  induction l generalizing i with
  | nil => simp at h
  | cons x xs ih =>
      cases i with
      | zero => simp_all
      | succ n => simp_all

end ListHelpers

theorem addEdge_edges (n : Node) (i : Nat) (l : Bool) :
    (n.AddEdge i l).edges = n.edges ++ [i] := rfl

theorem addEdge_link (n : Node) (i : Nat) (l : Bool) :
    (n.AddEdge i l).link_edge = (n.link_edge || l) := by
  cases l <;> simp [Node.AddEdge, Node.link_edge]

theorem addEdge_non_link (n : Node) (i : Nat) (l : Bool) :
    (n.AddEdge i l).non_link_edge = (n.non_link_edge || !l) := by
  cases l <;> simp [Node.AddEdge, Node.non_link_edge]

theorem applyAddEdges_edges (calls : List (Nat × Bool)) (n : Node) :
    (n.applyAddEdges calls).edges = n.edges ++ calls.map Prod.fst := by
  induction calls generalizing n with
  | nil => simp [Node.applyAddEdges]
  | cons c cs ih =>
      show ((n.AddEdge c.1 c.2).applyAddEdges cs).edges = _
      rw [ih, addEdge_edges]
      simp

theorem applyAddEdges_link (calls : List (Nat × Bool)) (n : Node) :
    (n.applyAddEdges calls).link_edge = (n.link_edge || calls.any (fun c => c.2)) := by
  induction calls generalizing n with
  | nil => simp [Node.applyAddEdges]
  | cons c cs ih =>
      show ((n.AddEdge c.1 c.2).applyAddEdges cs).link_edge = _
      rw [ih, addEdge_link]
      simp [Bool.or_assoc]

theorem applyAddEdges_non_link (calls : List (Nat × Bool)) (n : Node) :
    (n.applyAddEdges calls).non_link_edge = (n.non_link_edge || calls.any (fun c => !c.2)) := by
  induction calls generalizing n with
  | nil => simp [Node.applyAddEdges]
  | cons c cs ih =>
      show ((n.AddEdge c.1 c.2).applyAddEdges cs).non_link_edge = _
      rw [ih, addEdge_non_link]
      simp [Bool.or_assoc]

theorem bestStep_le (edges : List Edge) (b i : Nat) : bestStep edges b i ≤ b := by
  unfold bestStep
  cases edges[i]? with
  | none => exact Nat.le_refl b
  | some e =>
      show (if e.attributes.link = true then b else min b e.attributes.importance) ≤ b
      by_cases h : e.attributes.link = true
      · rw [if_pos h]
      · rw [if_neg h]
        exact Nat.min_le_left _ _

theorem bestFold_le_init (edges : List Edge) (l : List Nat) (b : Nat) :
    l.foldl (bestStep edges) b ≤ b := by
  induction l generalizing b with
  | nil => exact Nat.le_refl b
  | cons i is ih =>
      rw [List.foldl_cons]
      exact Nat.le_trans (ih _) (bestStep_le edges b i)

theorem bestFold_le_mem (edges : List Edge) (l : List Nat) (i : Nat) (e : Edge)
    (he : edges[i]? = some e) (hlink : e.attributes.link = false) :
    ∀ b, i ∈ l → l.foldl (bestStep edges) b ≤ e.attributes.importance := by
  induction l with
  | nil => intro b h; cases h
  | cons j js ih =>
      intro b hmem
      rw [List.foldl_cons]
      rcases List.mem_cons.mp hmem with hji | hji
      · subst hji
        refine Nat.le_trans (bestFold_le_init edges js _) ?_
        unfold bestStep
        rw [he]
        show (if e.attributes.link = true then b else min b e.attributes.importance)
          ≤ e.attributes.importance
        rw [if_neg (by simp [hlink])]
        exact Nat.min_le_right _ _
      · exact ih _ hji

theorem bestFold_attained (edges : List Edge) (l : List Nat) :
    ∀ b, l.foldl (bestStep edges) b = b ∨
    ∃ i ∈ l, i < edges.length ∧ isLink edges i = false ∧
      impOf edges i = l.foldl (bestStep edges) b := by
  induction l with
  | nil => intro b; exact Or.inl rfl
  | cons j js ih =>
      intro b
      rw [List.foldl_cons]
      rcases ih (bestStep edges b j) with heq | ⟨i, hi, hlt, hlink, himp⟩
      · rw [heq]
        have hstep : ∀ r : Nat, bestStep edges b j = r → (bestStep edges b j = b ∨
            (j < edges.length ∧ isLink edges j = false ∧ impOf edges j = r)) := by
          intro r hr
          unfold bestStep at hr
          cases he : edges[j]? with
          | none =>
              left
              unfold bestStep
              rw [he]
          | some e =>
              rw [he] at hr
              by_cases hl : e.attributes.link = true
              · left
                unfold bestStep
                rw [he]
                show (if e.attributes.link = true then b else min b e.attributes.importance) = b
                rw [if_pos hl]
              · rcases Nat.le_total b e.attributes.importance with hle | hle
                · left
                  unfold bestStep
                  rw [he]
                  show (if e.attributes.link = true then b else min b e.attributes.importance) = b
                  rw [if_neg hl]
                  exact Nat.min_eq_left hle
                · right
                  refine ⟨?_, ?_, ?_⟩
                  · rcases List.getElem?_eq_some.mp he with ⟨hj, _⟩
                    exact hj
                  · unfold isLink
                    rw [he]
                    simpa using hl
                  · rw [← hr]
                    unfold impOf
                    rw [he, Option.getD_some]
                    show e.attributes.importance
                      = (if e.attributes.link = true then b else min b e.attributes.importance)
                    rw [if_neg hl]
                    exact (Nat.min_eq_right hle).symm
        rcases hstep (bestStep edges b j) rfl with hb | ⟨hlt, hlink, himp⟩
        · exact Or.inl hb
        · exact Or.inr ⟨j, List.mem_cons_self j js, hlt, hlink, himp⟩
      · right
        exact ⟨i, List.mem_cons_of_mem j hi, hlt, hlink, himp⟩

theorem edgeSameShape_refl (e : Edge) : edgeSameShape e e := by
  unfold edgeSameShape
  refine ⟨rfl, rfl, rfl, rfl, rfl, rfl, rfl, rfl, rfl, rfl, rfl, rfl, fun _ => rfl⟩

theorem edgeSameShape_trans {a b c : Edge} (h1 : edgeSameShape a b)
    (h2 : edgeSameShape b c) : edgeSameShape a c := by
  unfold edgeSameShape at *
  obtain ⟨p1, p2, p3, p4, p5, p6, p7, p8, p9, p10, p11, p12, p13⟩ := h1
  obtain ⟨q1, q2, q3, q4, q5, q6, q7, q8, q9, q10, q11, q12, q13⟩ := h2
  refine ⟨p1.trans q1, p2.trans q2, p3.trans q3, p4.trans q4, p5.trans q5,
    p6.trans q6, p7.trans q7, p8.trans q8, p9.trans q9, p10.trans q10,
    p11.trans q11, p12.trans q12, fun hl => (p13 hl).trans (q13 (p11 ▸ hl))⟩

theorem skelEq_refl (g : LinkGraph) : SkelEq g g := by
  refine ⟨rfl, rfl, fun i e e' he he' => ?_⟩
  rw [he] at he'
  cases he'
  exact edgeSameShape_refl e

theorem skelEq_trans {a b c : LinkGraph} (h1 : SkelEq a b) (h2 : SkelEq b c) :
    SkelEq a c := by
  obtain ⟨n1, l1, s1⟩ := h1
  obtain ⟨n2, l2, s2⟩ := h2
  refine ⟨n1.trans n2, l1.trans l2, fun i e e' he he' => ?_⟩
  have hib : i < b.edges.length := by
    rw [← l1]
    rcases List.getElem?_eq_some.mp he with ⟨hlt, _⟩
    exact hlt
  rcases List.getElem?_eq_some.mp (List.getElem?_eq_getElem hib) with ⟨_, _⟩
  exact edgeSameShape_trans (s1 i e _ he (List.getElem?_eq_getElem hib))
    (s2 i _ e' (List.getElem?_eq_getElem hib) he')

theorem skel_getElem_none {g g' : LinkGraph} (h : SkelEq g g') (i : Nat)
    (hn : g.edges[i]? = none) : g'.edges[i]? = none := by
  rcases h with ⟨_, hlen, _⟩
  rw [List.getElem?_eq_none_iff] at hn ⊢
  rwa [← hlen]

theorem skel_getElem_some {g g' : LinkGraph} (h : SkelEq g g') (i : Nat) (e : Edge)
    (he : g.edges[i]? = some e) :
    ∃ e', g'.edges[i]? = some e' ∧ edgeSameShape e e' := by
  have hi : i < g'.edges.length := by
    rw [← h.2.1]
    rcases List.getElem?_eq_some.mp he with ⟨hlt, _⟩
    exact hlt
  exact ⟨g'.edges[i], List.getElem?_eq_getElem hi,
    h.2.2 i e _ he (List.getElem?_eq_getElem hi)⟩

theorem skel_nodeOf {g g' : LinkGraph} (h : SkelEq g g') (j : Nat) :
    nodeOf g j = nodeOf g' j := by
  unfold nodeOf
  rw [h.1]

theorem skel_isLink {g g' : LinkGraph} (h : SkelEq g g') (i : Nat) :
    isLink g.edges i = isLink g'.edges i := by
  unfold isLink
  cases he : g.edges[i]? with
  | none => rw [skel_getElem_none h i he]
  | some e =>
      obtain ⟨e', he', hs⟩ := skel_getElem_some h i e he
      rw [he']
      exact hs.2.2.2.2.2.2.2.2.2.2.1

theorem skel_otherEnd {g g' : LinkGraph} (h : SkelEq g g') (e n : Nat) :
    otherEnd g e n = otherEnd g' e n := by
  unfold otherEnd
  cases he : g.edges[e]? with
  | none => rw [skel_getElem_none h e he]
  | some ed =>
      obtain ⟨ed', he', hs⟩ := skel_getElem_some h e ed he
      rw [he']
      show (if ed.sourcenode_.id = n then ed.targetnode_.id else ed.sourcenode_.id)
        = (if ed'.sourcenode_.id = n then ed'.targetnode_.id else ed'.sourcenode_.id)
      rw [hs.1, hs.2.1]

theorem skel_nextLinkEdge {g g' : LinkGraph} (h : SkelEq g g') (node : Node)
    (prevEdge : Nat) :
    nextLinkEdge g.edges node prevEdge = nextLinkEdge g'.edges node prevEdge := by
  unfold nextLinkEdge
  have hfun : (fun i => (i != prevEdge) && isLink g.edges i)
      = (fun i => (i != prevEdge) && isLink g'.edges i) := by
    funext i
    rw [skel_isLink h]
  rw [hfun]

theorem skel_bestStep {g g' : LinkGraph} (h : SkelEq g g') (b i : Nat) :
    bestStep g.edges b i = bestStep g'.edges b i := by
  unfold bestStep
  cases he : g.edges[i]? with
  | none => rw [skel_getElem_none h i he]
  | some e =>
      obtain ⟨e', he', hs⟩ := skel_getElem_some h i e he
      rw [he']
      have hlink := hs.2.2.2.2.2.2.2.2.2.2.1
      show (if e.attributes.link = true then b else min b e.attributes.importance)
        = (if e'.attributes.link = true then b else min b e'.attributes.importance)
      by_cases hl : e.attributes.link = true
      · rw [if_pos hl, if_pos (hlink ▸ hl)]
      · have hl' : ¬ e'.attributes.link = true := by rw [← hlink]; exact hl
        rw [if_neg hl, if_neg hl']
        have himp := hs.2.2.2.2.2.2.2.2.2.2.2.2 (by simpa using hl)
        rw [himp]

theorem skel_getBest {g g' : LinkGraph} (h : SkelEq g g') (node : Node) :
    GetBestNonLinkClass node g.edges = GetBestNonLinkClass node g'.edges := by
  unfold GetBestNonLinkClass
  have hfun : bestStep g.edges = bestStep g'.edges := by
    funext b i
    exact skel_bestStep h b i
  rw [hfun]

theorem skel_bestPair {g g' : LinkGraph} (h : SkelEq g g') (j endn : Nat) :
    bestPair g j endn = bestPair g' j endn := by
  unfold bestPair
  rw [skel_nodeOf h j, skel_nodeOf h endn, skel_getBest h, skel_getBest h]

theorem skel_walkChain {g g' : LinkGraph} (h : SkelEq g g') :
    ∀ fuel prevEdge curNode,
      walkChain g fuel prevEdge curNode = walkChain g' fuel prevEdge curNode := by
  intro fuel
  induction fuel with
  | zero => intro _ _; rfl
  | succ n ih =>
      intro prevEdge curNode
      show walkChain g (n + 1) prevEdge curNode = walkChain g' (n + 1) prevEdge curNode
      unfold walkChain
      rw [← skel_nodeOf h curNode, ← skel_nextLinkEdge h (nodeOf g curNode) prevEdge]
      by_cases hnl : (nodeOf g curNode).attributes.non_link_edge = true
      · rw [if_pos hnl, if_pos hnl]
      · rw [if_neg hnl, if_neg hnl]
        cases hne : nextLinkEdge g.edges (nodeOf g curNode) prevEdge with
        | none => rfl
        | some e =>
            show (match walkChain g n e (otherEnd g e curNode) with
                  | ChainResult.found es endn => ChainResult.found (e :: es) endn
                  | r => r)
              = (match walkChain g' n e (otherEnd g' e curNode) with
                  | ChainResult.found es endn => ChainResult.found (e :: es) endn
                  | r => r)
            rw [← skel_otherEnd h e curNode, ← ih e (otherEnd g e curNode)]

theorem skel_chainFrom {g g' : LinkGraph} (h : SkelEq g g') (fuel j e0 : Nat) :
    chainFrom g fuel j e0 = chainFrom g' fuel j e0 := by
  unfold chainFrom
  rw [← skel_otherEnd h e0 j, ← skel_walkChain h fuel e0 (otherEnd g e0 j)]

theorem skel_isJunction {g g' : LinkGraph} (h : SkelEq g g') (j : Nat) :
    isJunctionB g j = isJunctionB g' j := by
  unfold isJunctionB
  rw [skel_nodeOf h j]

theorem skel_filterLinks {g g' : LinkGraph} (h : SkelEq g g') (j : Nat) :
    (nodeOf g j).edges.filter (fun i => isLink g.edges i)
      = (nodeOf g' j).edges.filter (fun i => isLink g'.edges i) := by
  rw [← skel_nodeOf h j]
  have hfun : (fun i => isLink g.edges i) = (fun i => isLink g'.edges i) := by
    funext i
    exact skel_isLink h i
  rw [hfun]

theorem length_updateEdgeImp (edges : List Edge) (i c : Nat) :
    (updateEdgeImp edges i c).length = edges.length := by
  unfold updateEdgeImp
  cases he : edges[i]? with
  | none => rfl
  | some e => exact List.length_set edges i _

theorem getElem?_updateEdgeImp_ne (edges : List Edge) (i c j : Nat) (hij : i ≠ j) :
    (updateEdgeImp edges i c)[j]? = edges[j]? := by
  unfold updateEdgeImp
  cases he : edges[i]? with
  | none => rfl
  | some e => exact List.getElem?_set_ne hij

theorem getElem?_updateEdgeImp_self (edges : List Edge) (i c : Nat) (e : Edge)
    (he : edges[i]? = some e) :
    (updateEdgeImp edges i c)[i]?
      = some { e with attributes := e.attributes.set_importance (min e.attributes.importance c) } := by
  unfold updateEdgeImp
  rw [he]
  rcases List.getElem?_eq_some.mp he with ⟨hlt, _⟩
  exact List.getElem?_set_self hlt

theorem skel_updateEdgeImp (g : LinkGraph) (i c : Nat) (hl : isLink g.edges i = true) :
    SkelEq g { g with edges := updateEdgeImp g.edges i c } := by
  refine ⟨rfl, (length_updateEdgeImp g.edges i c).symm, fun k e e' he he' => ?_⟩
  by_cases hik : i = k
  · subst hik
    unfold isLink at hl
    rw [he] at hl
    have hl' : e.attributes.link = true := hl
    rw [getElem?_updateEdgeImp_self g.edges i c e he] at he'
    cases he'
    unfold edgeSameShape
    refine ⟨rfl, rfl, rfl, rfl, rfl, rfl, rfl, rfl, rfl, rfl, rfl, rfl, fun hf => ?_⟩
    rw [hf] at hl'
    exact Bool.noConfusion hl'
  · rw [getElem?_updateEdgeImp_ne g.edges i c k hik, he] at he'
    cases he'
    exact edgeSameShape_refl e

theorem skel_updateImps (es : List Nat) :
    ∀ (g : LinkGraph) (c : Nat), (∀ i ∈ es, isLink g.edges i = true) →
      SkelEq g { g with edges := updateImps g.edges c es } := by
  induction es with
  | nil => intro g c _; exact skelEq_refl g
  | cons j js ih =>
      intro g c h
      have h1 := skel_updateEdgeImp g j c (h j (List.mem_cons_self j js))
      have h2 : ∀ i ∈ js,
          isLink ({ g with edges := updateEdgeImp g.edges j c } : LinkGraph).edges i = true := by
        intro i hi
        rw [← skel_isLink h1 i]
        exact h i (List.mem_cons_of_mem j hi)
      exact skelEq_trans h1 (ih { g with edges := updateEdgeImp g.edges j c } c h2)

theorem impOf_updateEdgeImp_le (edges : List Edge) (i c j : Nat) :
    impOf (updateEdgeImp edges i c) j ≤ impOf edges j := by
  by_cases hij : i = j
  · subst hij
    cases he : edges[i]? with
    | none =>
        unfold updateEdgeImp
        rw [he]
    | some e =>
        unfold impOf
        rw [getElem?_updateEdgeImp_self edges i c e he, he]
        show (min e.attributes.importance c % 8) ≤ e.attributes.importance
        exact Nat.le_trans (Nat.mod_le _ _) (Nat.min_le_left _ _)
  · unfold impOf
    rw [getElem?_updateEdgeImp_ne edges i c j hij]

theorem impOf_updateImps_le (es : List Nat) :
    ∀ (edges : List Edge) (c j : Nat), impOf (updateImps edges c es) j ≤ impOf edges j := by
  induction es with
  | nil => intro edges c j; exact Nat.le_refl _
  | cons k ks ih =>
      intro edges c j
      exact Nat.le_trans (ih (updateEdgeImp edges k c) c j) (impOf_updateEdgeImp_le edges k c j)

theorem impOf_updateEdgeImp_self_le (edges : List Edge) (i c : Nat) :
    impOf (updateEdgeImp edges i c) i ≤ c ∧ impOf (updateEdgeImp edges i c) i < 8 := by
  cases he : edges[i]? with
  | none =>
      unfold updateEdgeImp impOf
      rw [he]
      rw [he]
      exact ⟨Nat.zero_le c, by decide⟩
  | some e =>
      unfold impOf
      rw [getElem?_updateEdgeImp_self edges i c e he]
      show (min e.attributes.importance c % 8) ≤ c ∧ (min e.attributes.importance c % 8) < 8
      exact ⟨Nat.le_trans (Nat.mod_le _ _) (Nat.min_le_right _ _), Nat.mod_lt _ (by decide)⟩

theorem impOf_updateImps_post (es : List Nat) :
    ∀ (edges : List Edge) (c : Nat), ∀ i ∈ es,
      impOf (updateImps edges c es) i ≤ c ∧ impOf (updateImps edges c es) i < 8 := by
  induction es with
  | nil => intro edges c i hi; cases hi
  | cons j js ih =>
      intro edges c i hi
      rcases List.mem_cons.mp hi with hij | hij
      · subst hij
        have h1 := impOf_updateEdgeImp_self_le edges i c
        have h2 := impOf_updateImps_le js (updateEdgeImp edges i c) c i
        exact ⟨Nat.le_trans h2 h1.1, Nat.lt_of_le_of_lt h2 h1.2⟩
      · exact ih (updateEdgeImp edges j c) c i hij

theorem updateImps_noop (es : List Nat) :
    ∀ (edges : List Edge) (c : Nat),
      (∀ i ∈ es, impOf edges i ≤ c ∧ impOf edges i < 8) →
      updateImps edges c es = edges := by
  induction es with
  | nil => intro edges c _; rfl
  | cons j js ih =>
      intro edges c h
      have hup : updateEdgeImp edges j c = edges := by
        unfold updateEdgeImp
        cases he : edges[j]? with
        | none => rfl
        | some e =>
            have himp : impOf edges j = e.attributes.importance := by
              unfold impOf
              rw [he]
              rfl
            have h1 := (h j (List.mem_cons_self j js)).1
            have h2 := (h j (List.mem_cons_self j js)).2
            rw [himp] at h1 h2
            have hmin : min e.attributes.importance c = e.attributes.importance := by
              omega
            have hrec :
                ({ e with attributes := e.attributes.set_importance (min e.attributes.importance c) }) = e := by
              unfold EdgeAttributes.set_importance
              rw [hmin, Nat.mod_eq_of_lt h2]
              rfl
            show edges.set j
              { e with attributes := e.attributes.set_importance (min e.attributes.importance c) }
              = edges
            rw [hrec]
            exact list_set_getElem?_self he
      show updateImps (updateEdgeImp edges j c) c js = edges
      rw [hup]
      exact ih edges c (fun i hi => h i (List.mem_cons_of_mem j hi))

theorem walkChain_links (g : LinkGraph) :
    ∀ (fuel prevEdge curNode : Nat) (es : List Nat) (endn : Nat),
      walkChain g fuel prevEdge curNode = ChainResult.found es endn →
      ∀ i ∈ es, isLink g.edges i = true := by
  intro fuel
  induction fuel with
  | zero =>
      intro prevEdge curNode es endn h
      exact ChainResult.noConfusion h
  | succ n ih =>
      intro prevEdge curNode es endn h i hi
      unfold walkChain at h
      by_cases hnl : (nodeOf g curNode).attributes.non_link_edge = true
      · rw [if_pos hnl] at h
        injection h with h1 h2
        subst h1
        cases hi
      · rw [if_neg hnl] at h
        cases hne : nextLinkEdge g.edges (nodeOf g curNode) prevEdge with
        | none =>
            rw [hne] at h
            have h' : ChainResult.deadEnd = ChainResult.found es endn := h
            exact ChainResult.noConfusion h'
        | some e =>
            rw [hne] at h
            have h2 : (match walkChain g n e (otherEnd g e curNode) with
                | ChainResult.found es endn => ChainResult.found (e :: es) endn
                | r => r) = ChainResult.found es endn := h
            cases hw : walkChain g n e (otherEnd g e curNode) with
            | found es' endn' =>
                rw [hw] at h2
                have h' : ChainResult.found (e :: es') endn' = ChainResult.found es endn := h2
                injection h' with h1 h3
                subst h1
                rcases List.mem_cons.mp hi with hie | hie
                · subst hie
                  have hfind := List.find?_some hne
                  simp only [Bool.and_eq_true] at hfind
                  exact hfind.2
                · exact ih e (otherEnd g e curNode) es' endn' hw i hie
            | deadEnd =>
                rw [hw] at h2
                have h' : ChainResult.deadEnd = ChainResult.found es endn := h2
                exact ChainResult.noConfusion h'
            | exhausted =>
                rw [hw] at h2
                have h' : ChainResult.exhausted = ChainResult.found es endn := h2
                exact ChainResult.noConfusion h'

theorem chainFrom_links (g : LinkGraph) (fuel j e0 : Nat) (es : List Nat) (endn : Nat)
    (h0 : isLink g.edges e0 = true)
    (h : chainFrom g fuel j e0 = ChainResult.found es endn) :
    ∀ i ∈ es, isLink g.edges i = true := by
  unfold chainFrom at h
  cases hw : walkChain g fuel e0 (otherEnd g e0 j) with
  | found es' endn' =>
      rw [hw] at h
      have h' : ChainResult.found (e0 :: es') endn' = ChainResult.found es endn := h
      injection h' with h1 h2
      subst h1
      intro i hi
      rcases List.mem_cons.mp hi with hie | hie
      · subst hie
        exact h0
      · exact walkChain_links g fuel e0 (otherEnd g e0 j) es' endn' hw i hie
  | deadEnd =>
      rw [hw] at h
      have h' : ChainResult.deadEnd = ChainResult.found es endn := h
      exact ChainResult.noConfusion h'
  | exhausted =>
      rw [hw] at h
      have h' : ChainResult.exhausted = ChainResult.found es endn := h
      exact ChainResult.noConfusion h'

theorem processChains_cons_found (fuel j : Nat) (g : LinkGraph) (c : Nat)
    (e0 : Nat) (rest : List Nat) (es : List Nat) (endn : Nat)
    (hcf : chainFrom g fuel j e0 = ChainResult.found es endn) :
    processChains fuel j (g, c) (e0 :: rest)
      = processChains fuel j
          ({ g with edges := updateImps g.edges (bestPair g j endn) es }, c) rest := by
  show (match chainFrom g fuel j e0 with
        | ChainResult.found es endn =>
            processChains fuel j
              ({ g with edges := updateImps g.edges (bestPair g j endn) es }, c) rest
        | ChainResult.deadEnd => processChains fuel j (g, c) rest
        | ChainResult.exhausted => processChains fuel j (g, c + 1) rest)
      = _
  rw [hcf]

theorem processChains_cons_deadEnd (fuel j : Nat) (g : LinkGraph) (c : Nat)
    (e0 : Nat) (rest : List Nat)
    (hcf : chainFrom g fuel j e0 = ChainResult.deadEnd) :
    processChains fuel j (g, c) (e0 :: rest) = processChains fuel j (g, c) rest := by
  show (match chainFrom g fuel j e0 with
        | ChainResult.found es endn =>
            processChains fuel j
              ({ g with edges := updateImps g.edges (bestPair g j endn) es }, c) rest
        | ChainResult.deadEnd => processChains fuel j (g, c) rest
        | ChainResult.exhausted => processChains fuel j (g, c + 1) rest)
      = _
  rw [hcf]

theorem processChains_cons_exhausted (fuel j : Nat) (g : LinkGraph) (c : Nat)
    (e0 : Nat) (rest : List Nat)
    (hcf : chainFrom g fuel j e0 = ChainResult.exhausted) :
    processChains fuel j (g, c) (e0 :: rest) = processChains fuel j (g, c + 1) rest := by
  show (match chainFrom g fuel j e0 with
        | ChainResult.found es endn =>
            processChains fuel j
              ({ g with edges := updateImps g.edges (bestPair g j endn) es }, c) rest
        | ChainResult.deadEnd => processChains fuel j (g, c) rest
        | ChainResult.exhausted => processChains fuel j (g, c + 1) rest)
      = _
  rw [hcf]

theorem processJunction_junction (fuel : Nat) (g : LinkGraph) (c : Nat) (j : Nat)
    (hj : isJunctionB g j = true) :
    processJunction fuel (g, c) j
      = processChains fuel j (g, c)
          ((nodeOf g j).edges.filter (fun i => isLink g.edges i)) := by
  show (if isJunctionB g j = true
        then processChains fuel j (g, c)
          ((nodeOf g j).edges.filter (fun i => isLink g.edges i))
        else (g, c))
      = _
  rw [if_pos hj]

theorem processJunction_skip (fuel : Nat) (g : LinkGraph) (c : Nat) (j : Nat)
    (hj : isJunctionB g j = false) :
    processJunction fuel (g, c) j = (g, c) := by
  show (if isJunctionB g j = true
        then processChains fuel j (g, c)
          ((nodeOf g j).edges.filter (fun i => isLink g.edges i))
        else (g, c))
      = _
  rw [if_neg (by simp [hj])]

theorem chainProp_mono {g g' : LinkGraph} (fuel j e0 : Nat) (h : SkelEq g g')
    (hle : ∀ i, impOf g'.edges i ≤ impOf g.edges i)
    (hc : ChainProp fuel g j e0) : ChainProp fuel g' j e0 := by
  intro es endn hf i hi
  rw [← skel_chainFrom h fuel j e0] at hf
  have hb := hc es endn hf i hi
  rw [← skel_bestPair h j endn]
  exact ⟨Nat.le_trans (hle i) hb.1, Nat.lt_of_le_of_lt (hle i) hb.2⟩

theorem jstable_mono {g g' : LinkGraph} (fuel j : Nat) (h : SkelEq g g')
    (hle : ∀ i, impOf g'.edges i ≤ impOf g.edges i)
    (hj : JStable fuel g j) : JStable fuel g' j := by
  intro hjunc e0 he0
  rw [← skel_isJunction h j] at hjunc
  rw [← skel_filterLinks h j] at he0
  exact chainProp_mono fuel j e0 h hle (hj hjunc e0 he0)

theorem processChains_master (fuel j : Nat) (l : List Nat) :
    ∀ (g : LinkGraph) (c : Nat),
      (∀ i ∈ l, isLink g.edges i = true) →
      SkelEq g (processChains fuel j (g, c) l).1
      ∧ (∀ i, impOf (processChains fuel j (g, c) l).1.edges i ≤ impOf g.edges i)
      ∧ c ≤ (processChains fuel j (g, c) l).2
      ∧ ∀ e0 ∈ l, ChainProp fuel (processChains fuel j (g, c) l).1 j e0 := by
  induction l with
  | nil =>
      intro g c _
      exact ⟨skelEq_refl g, fun i => Nat.le_refl _, Nat.le_refl c,
        fun e0 he0 => absurd he0 (List.not_mem_nil e0)⟩
  | cons e0 rest ih =>
      intro g c hl
      cases hcf : chainFrom g fuel j e0 with
      | found es endn =>
          rw [processChains_cons_found fuel j g c e0 rest es endn hcf]
          have hlinks : ∀ i ∈ es, isLink g.edges i = true :=
            chainFrom_links g fuel j e0 es endn (hl e0 (List.mem_cons_self e0 rest)) hcf
          have hskel1 : SkelEq g { g with edges := updateImps g.edges (bestPair g j endn) es } :=
            skel_updateImps es g (bestPair g j endn) hlinks
          have hrest : ∀ i ∈ rest,
              isLink ({ g with edges := updateImps g.edges (bestPair g j endn) es } : LinkGraph).edges i = true := by
            intro i hi
            rw [← skel_isLink hskel1 i]
            exact hl i (List.mem_cons_of_mem e0 hi)
          obtain ⟨s2, le2, c2, cp2⟩ :=
            ih { g with edges := updateImps g.edges (bestPair g j endn) es } c hrest
          refine ⟨skelEq_trans hskel1 s2, ?_, c2, ?_⟩
          · intro i
            exact Nat.le_trans (le2 i) (impOf_updateImps_le es g.edges (bestPair g j endn) i)
          · intro e he
            rcases List.mem_cons.mp he with hee | htail
            · subst hee
              have hcp1 : ChainProp fuel
                  ({ g with edges := updateImps g.edges (bestPair g j endn) es } : LinkGraph) j e := by
                intro es' endn' hf'
                rw [← skel_chainFrom hskel1 fuel j e, hcf] at hf'
                injection hf' with hes hendn
                subst hes
                subst hendn
                intro i hi
                have hpost := impOf_updateImps_post es g.edges (bestPair g j endn) i hi
                rw [← skel_bestPair hskel1 j endn]
                exact hpost
              exact chainProp_mono fuel j e s2 le2 hcp1
            · exact cp2 e htail
      | deadEnd =>
          rw [processChains_cons_deadEnd fuel j g c e0 rest hcf]
          obtain ⟨s2, le2, c2, cp2⟩ := ih g c (fun i hi => hl i (List.mem_cons_of_mem e0 hi))
          refine ⟨s2, le2, c2, fun e he => ?_⟩
          rcases List.mem_cons.mp he with hee | htail
          · subst hee
            intro es endn hf
            rw [← skel_chainFrom s2 fuel j e, hcf] at hf
            exact ChainResult.noConfusion hf
          · exact cp2 e htail
      | exhausted =>
          rw [processChains_cons_exhausted fuel j g c e0 rest hcf]
          obtain ⟨s2, le2, c2, cp2⟩ :=
            ih g (c + 1) (fun i hi => hl i (List.mem_cons_of_mem e0 hi))
          refine ⟨s2, le2, Nat.le_trans (Nat.le_succ c) c2, fun e he => ?_⟩
          rcases List.mem_cons.mp he with hee | htail
          · subst hee
            intro es endn hf
            rw [← skel_chainFrom s2 fuel j e, hcf] at hf
            exact ChainResult.noConfusion hf
          · exact cp2 e htail

theorem processJunction_master (fuel : Nat) (g : LinkGraph) (c : Nat) (j : Nat) :
    SkelEq g (processJunction fuel (g, c) j).1
    ∧ (∀ i, impOf (processJunction fuel (g, c) j).1.edges i ≤ impOf g.edges i)
    ∧ c ≤ (processJunction fuel (g, c) j).2
    ∧ JStable fuel (processJunction fuel (g, c) j).1 j := by
  by_cases hj : isJunctionB g j = true
  · rw [processJunction_junction fuel g c j hj]
    have hl : ∀ i ∈ (nodeOf g j).edges.filter (fun i => isLink g.edges i),
        isLink g.edges i = true :=
      fun i hi => (List.mem_filter.mp hi).2
    obtain ⟨s, le, cc, cp⟩ := processChains_master fuel j _ g c hl
    refine ⟨s, le, cc, ?_⟩
    intro _ e0 he0
    rw [← skel_filterLinks s j] at he0
    exact cp e0 he0
  · have hjf : isJunctionB g j = false := by simpa using hj
    rw [processJunction_skip fuel g c j hjf]
    refine ⟨skelEq_refl g, fun i => Nat.le_refl _, Nat.le_refl c, ?_⟩
    intro hjunc
    have hjunc' : isJunctionB g j = true := hjunc
    rw [hjf] at hjunc'
    exact Bool.noConfusion hjunc'

theorem foldJ_master (fuel : Nat) (J : List Nat) :
    ∀ (g : LinkGraph) (c : Nat),
      SkelEq g (J.foldl (processJunction fuel) (g, c)).1
      ∧ (∀ i, impOf (J.foldl (processJunction fuel) (g, c)).1.edges i ≤ impOf g.edges i)
      ∧ c ≤ (J.foldl (processJunction fuel) (g, c)).2
      ∧ ∀ j ∈ J, JStable fuel (J.foldl (processJunction fuel) (g, c)).1 j := by
  induction J with
  | nil =>
      intro g c
      exact ⟨skelEq_refl g, fun i => Nat.le_refl _, Nat.le_refl c,
        fun j hj => absurd hj (List.not_mem_nil j)⟩
  | cons j J ih =>
      intro g c
      rw [List.foldl_cons]
      obtain ⟨s1, le1, c1, js1⟩ := processJunction_master fuel g c j
      obtain ⟨s2, le2, c2, js2⟩ :=
        ih (processJunction fuel (g, c) j).1 (processJunction fuel (g, c) j).2
      refine ⟨skelEq_trans s1 s2, fun i => Nat.le_trans (le2 i) (le1 i),
        Nat.le_trans c1 c2, ?_⟩
      intro j' hj'
      rcases List.mem_cons.mp hj' with hjj | hj'
      · subst hjj
        exact jstable_mono fuel j' s2 le2 js1
      · exact js2 j' hj'

theorem reclassify_skel (fuel : Nat) (g : LinkGraph) :
    SkelEq g (ReclassifyLinks fuel g).1 :=
  (foldJ_master fuel (List.range g.nodes.length) g 0).1

theorem isJunctionB_false_of_ge (g : LinkGraph) (j : Nat)
    (h : g.nodes.length ≤ j) : isJunctionB g j = false := by
  unfold isJunctionB nodeOf
  rw [List.getElem?_eq_none h]
  rfl

theorem reclassify_stable (fuel : Nat) (g : LinkGraph) :
    Stable fuel (ReclassifyLinks fuel g).1 := by
  intro j
  by_cases hj : j < g.nodes.length
  · exact (foldJ_master fuel (List.range g.nodes.length) g 0).2.2.2 j (List.mem_range.mpr hj)
  · intro hjunc e0 he0
    exfalso
    have hskel := reclassify_skel fuel g
    have hlen : (ReclassifyLinks fuel g).1.nodes.length = g.nodes.length := by
      rw [← hskel.1]
    have hfalse : isJunctionB (ReclassifyLinks fuel g).1 j = false :=
      isJunctionB_false_of_ge _ j (by omega)
    rw [hfalse] at hjunc
    exact Bool.noConfusion hjunc

theorem processChains_noop (fuel j : Nat) (l : List Nat) :
    ∀ (g : LinkGraph) (c : Nat),
      (∀ e0 ∈ l, ChainProp fuel g j e0) →
      (processChains fuel j (g, c) l).1 = g := by
  induction l with
  | nil => intro g c _; rfl
  | cons e0 rest ih =>
      intro g c hcp
      cases hcf : chainFrom g fuel j e0 with
      | found es endn =>
          rw [processChains_cons_found fuel j g c e0 rest es endn hcf]
          have hb := hcp e0 (List.mem_cons_self e0 rest) es endn hcf
          have hnoop : updateImps g.edges (bestPair g j endn) es = g.edges :=
            updateImps_noop es g.edges (bestPair g j endn) hb
          have hgg : ({ g with edges := updateImps g.edges (bestPair g j endn) es } : LinkGraph) = g := by
            rw [hnoop]
          rw [hgg]
          exact ih g c (fun e he => hcp e (List.mem_cons_of_mem e0 he))
      | deadEnd =>
          rw [processChains_cons_deadEnd fuel j g c e0 rest hcf]
          exact ih g c (fun e he => hcp e (List.mem_cons_of_mem e0 he))
      | exhausted =>
          rw [processChains_cons_exhausted fuel j g c e0 rest hcf]
          exact ih g (c + 1) (fun e he => hcp e (List.mem_cons_of_mem e0 he))

theorem processJunction_noop (fuel : Nat) (g : LinkGraph) (c : Nat) (j : Nat)
    (hst : JStable fuel g j) : (processJunction fuel (g, c) j).1 = g := by
  by_cases hj : isJunctionB g j = true
  · rw [processJunction_junction fuel g c j hj]
    exact processChains_noop fuel j _ g c (hst hj)
  · rw [processJunction_skip fuel g c j (by simpa using hj)]

theorem foldJ_noop (fuel : Nat) (J : List Nat) :
    ∀ (g : LinkGraph) (c : Nat), Stable fuel g →
      (J.foldl (processJunction fuel) (g, c)).1 = g := by
  induction J with
  | nil => intro g c _; rfl
  | cons j J ih =>
      intro g c hst
      rw [List.foldl_cons]
      have h1 : (processJunction fuel (g, c) j).1 = g :=
        processJunction_noop fuel g c j (hst j)
      have hst1 : Stable fuel (processJunction fuel (g, c) j).1 := by
        rw [h1]
        exact hst
      calc (J.foldl (processJunction fuel) (processJunction fuel (g, c) j)).1
          = (J.foldl (processJunction fuel)
              ((processJunction fuel (g, c) j).1, (processJunction fuel (g, c) j).2)).1 := rfl
        _ = (processJunction fuel (g, c) j).1 :=
            ih (processJunction fuel (g, c) j).1 (processJunction fuel (g, c) j).2 hst1
        _ = g := h1

theorem processChains_nofound (fuel j : Nat) (l : List Nat) :
    ∀ (g : LinkGraph) (c : Nat),
      (∀ e0 ∈ l, (chainFrom g fuel j e0).isFound = false) →
      (processChains fuel j (g, c) l).1 = g := by
  induction l with
  | nil => intro g c _; rfl
  | cons e0 rest ih =>
      intro g c h
      cases hcf : chainFrom g fuel j e0 with
      | found es endn =>
          exfalso
          have hf := h e0 (List.mem_cons_self e0 rest)
          rw [hcf] at hf
          have hf' : true = false := hf
          exact Bool.noConfusion hf'
      | deadEnd =>
          rw [processChains_cons_deadEnd fuel j g c e0 rest hcf]
          exact ih g c (fun e he => h e (List.mem_cons_of_mem e0 he))
      | exhausted =>
          rw [processChains_cons_exhausted fuel j g c e0 rest hcf]
          exact ih g (c + 1) (fun e he => h e (List.mem_cons_of_mem e0 he))

theorem processJunction_nofound (fuel : Nat) (g : LinkGraph) (c : Nat) (j : Nat)
    (h : isJunctionB g j = true →
      ∀ e0 ∈ (nodeOf g j).edges.filter (fun i => isLink g.edges i),
        (chainFrom g fuel j e0).isFound = false) :
    (processJunction fuel (g, c) j).1 = g := by
  by_cases hj : isJunctionB g j = true
  · rw [processJunction_junction fuel g c j hj]
    exact processChains_nofound fuel j _ g c (h hj)
  · rw [processJunction_skip fuel g c j (by simpa using hj)]

theorem foldJ_nofound (fuel : Nat) (J : List Nat) :
    ∀ (g : LinkGraph) (c : Nat),
      (∀ j ∈ J, isJunctionB g j = true →
        ∀ e0 ∈ (nodeOf g j).edges.filter (fun i => isLink g.edges i),
          (chainFrom g fuel j e0).isFound = false) →
      (J.foldl (processJunction fuel) (g, c)).1 = g := by
  induction J with
  | nil => intro g c _; rfl
  | cons j J ih =>
      intro g c h
      rw [List.foldl_cons]
      have h1 : (processJunction fuel (g, c) j).1 = g :=
        processJunction_nofound fuel g c j (h j (List.mem_cons_self j J))
      have h2 : ∀ j' ∈ J, isJunctionB (processJunction fuel (g, c) j).1 j' = true →
          ∀ e0 ∈ (nodeOf (processJunction fuel (g, c) j).1 j').edges.filter
              (fun i => isLink (processJunction fuel (g, c) j).1.edges i),
            (chainFrom (processJunction fuel (g, c) j).1 fuel j' e0).isFound = false := by
        rw [h1]
        exact fun j' hj' => h j' (List.mem_cons_of_mem j hj')
      calc (J.foldl (processJunction fuel) (processJunction fuel (g, c) j)).1
          = (J.foldl (processJunction fuel)
              ((processJunction fuel (g, c) j).1, (processJunction fuel (g, c) j).2)).1 := rfl
        _ = (processJunction fuel (g, c) j).1 :=
            ih (processJunction fuel (g, c) j).1 (processJunction fuel (g, c) j).2 h2
        _ = g := h1

theorem processChains_count_le (fuel j : Nat) (l : List Nat) :
    ∀ (g : LinkGraph) (c : Nat), c ≤ (processChains fuel j (g, c) l).2 := by
  induction l with
  | nil => intro g c; exact Nat.le_refl c
  | cons e0 rest ih =>
      intro g c
      cases hcf : chainFrom g fuel j e0 with
      | found es endn =>
          rw [processChains_cons_found fuel j g c e0 rest es endn hcf]
          exact ih _ c
      | deadEnd =>
          rw [processChains_cons_deadEnd fuel j g c e0 rest hcf]
          exact ih g c
      | exhausted =>
          rw [processChains_cons_exhausted fuel j g c e0 rest hcf]
          exact Nat.le_trans (Nat.le_succ c) (ih g (c + 1))

theorem processChains_count_exh (fuel j : Nat) (l : List Nat) :
    ∀ (g : LinkGraph) (c : Nat) (e0 : Nat), e0 ∈ l →
      (∀ e ∈ l, (chainFrom g fuel j e).isFound = false) →
      chainFrom g fuel j e0 = ChainResult.exhausted →
      c + 1 ≤ (processChains fuel j (g, c) l).2 := by
  induction l with
  | nil => intro g c e0 he0; cases he0
  | cons e1 rest ih =>
      intro g c e0 he0 hall hexh
      cases hcf : chainFrom g fuel j e1 with
      | found es endn =>
          exfalso
          have hf := hall e1 (List.mem_cons_self e1 rest)
          rw [hcf] at hf
          have hf' : true = false := hf
          exact Bool.noConfusion hf'
      | deadEnd =>
          rw [processChains_cons_deadEnd fuel j g c e1 rest hcf]
          rcases List.mem_cons.mp he0 with he01 | he0r
          · subst he01
            rw [hcf] at hexh
            exact ChainResult.noConfusion hexh
          · exact ih g c e0 he0r (fun e he => hall e (List.mem_cons_of_mem e1 he)) hexh
      | exhausted =>
          rw [processChains_cons_exhausted fuel j g c e1 rest hcf]
          exact processChains_count_le fuel j rest g (c + 1)

theorem processJunction_count_le (fuel : Nat) (g : LinkGraph) (c : Nat) (j : Nat) :
    c ≤ (processJunction fuel (g, c) j).2 := by
  by_cases hj : isJunctionB g j = true
  · rw [processJunction_junction fuel g c j hj]
    exact processChains_count_le fuel j _ g c
  · rw [processJunction_skip fuel g c j (by simpa using hj)]

theorem foldJ_count_le (fuel : Nat) (J : List Nat) :
    ∀ (g : LinkGraph) (c : Nat), c ≤ (J.foldl (processJunction fuel) (g, c)).2 := by
  induction J with
  | nil => intro g c; exact Nat.le_refl c
  | cons j J ih =>
      intro g c
      rw [List.foldl_cons]
      calc c ≤ (processJunction fuel (g, c) j).2 := processJunction_count_le fuel g c j
        _ ≤ (J.foldl (processJunction fuel)
              ((processJunction fuel (g, c) j).1, (processJunction fuel (g, c) j).2)).2 :=
            ih (processJunction fuel (g, c) j).1 (processJunction fuel (g, c) j).2
        _ = (J.foldl (processJunction fuel) (processJunction fuel (g, c) j)).2 := rfl

theorem foldJ_exh (fuel : Nat) (J : List Nat) :
    ∀ (g : LinkGraph) (c : Nat),
      (∀ j ∈ J, isJunctionB g j = true →
        ∀ e0 ∈ (nodeOf g j).edges.filter (fun i => isLink g.edges i),
          (chainFrom g fuel j e0).isFound = false) →
      ∀ jx ∈ J, isJunctionB g jx = true →
      ∀ e0 ∈ (nodeOf g jx).edges.filter (fun i => isLink g.edges i),
        chainFrom g fuel jx e0 = ChainResult.exhausted →
      c + 1 ≤ (J.foldl (processJunction fuel) (g, c)).2 := by
  induction J with
  | nil => intro g c _ jx hjx; cases hjx
  | cons j J ih =>
      intro g c hall jx hjx hjunc e0 he0 hexh
      rw [List.foldl_cons]
      have hp1 : (processJunction fuel (g, c) j).1 = g :=
        processJunction_nofound fuel g c j (hall j (List.mem_cons_self j J))
      rcases List.mem_cons.mp hjx with hjj | hmem
      · subst hjj
        have hstep : c + 1 ≤ (processJunction fuel (g, c) jx).2 := by
          rw [processJunction_junction fuel g c jx hjunc]
          exact processChains_count_exh fuel jx _ g c e0 he0 (hall jx (List.mem_cons_self jx J) hjunc) hexh
        calc c + 1 ≤ (processJunction fuel (g, c) jx).2 := hstep
          _ ≤ (J.foldl (processJunction fuel)
                ((processJunction fuel (g, c) jx).1, (processJunction fuel (g, c) jx).2)).2 :=
              foldJ_count_le fuel J _ _
          _ = (J.foldl (processJunction fuel) (processJunction fuel (g, c) jx)).2 := rfl
      · have hall2 : ∀ j' ∈ J, isJunctionB (processJunction fuel (g, c) j).1 j' = true →
            ∀ e1 ∈ (nodeOf (processJunction fuel (g, c) j).1 j').edges.filter
                (fun i => isLink (processJunction fuel (g, c) j).1.edges i),
              (chainFrom (processJunction fuel (g, c) j).1 fuel j' e1).isFound = false := by
          rw [hp1]
          exact fun j' hj' => hall j' (List.mem_cons_of_mem j hj')
        have hjunc2 : isJunctionB (processJunction fuel (g, c) j).1 jx = true := by
          rw [hp1]
          exact hjunc
        have he02 : e0 ∈ (nodeOf (processJunction fuel (g, c) j).1 jx).edges.filter
            (fun i => isLink (processJunction fuel (g, c) j).1.edges i) := by
          rw [hp1]
          exact he0
        have hexh2 : chainFrom (processJunction fuel (g, c) j).1 fuel jx e0
            = ChainResult.exhausted := by
          rw [hp1]
          exact hexh
        have hrec := ih (processJunction fuel (g, c) j).1 (processJunction fuel (g, c) j).2
          hall2 jx hmem hjunc2 e0 he02 hexh2
        have hcle := processJunction_count_le fuel g c j
        calc c + 1 ≤ (processJunction fuel (g, c) j).2 + 1 := by omega
          _ ≤ (J.foldl (processJunction fuel)
                ((processJunction fuel (g, c) j).1, (processJunction fuel (g, c) j).2)).2 := hrec
          _ = (J.foldl (processJunction fuel) (processJunction fuel (g, c) j)).2 := rfl

theorem updateImps_impOf_notmem (es : List Nat) :
    ∀ (edges : List Edge) (c i : Nat), ¬ i ∈ es →
      impOf (updateImps edges c es) i = impOf edges i := by
  induction es with
  | nil => intro edges c i _; rfl
  | cons j js ih =>
      intro edges c i hi
      have hij : j ≠ i := fun h => hi (h ▸ List.mem_cons_self j js)
      have hjs : ¬ i ∈ js := fun h => hi (List.mem_cons_of_mem j h)
      show impOf (updateImps (updateEdgeImp edges j c) c js) i = impOf edges i
      rw [ih (updateEdgeImp edges j c) c i hjs]
      unfold impOf
      rw [getElem?_updateEdgeImp_ne edges j c i hij]

theorem processChains_unreached (fuel j : Nat) (l : List Nat) :
    ∀ (g : LinkGraph) (c i : Nat),
      (∀ e0 ∈ l, isLink g.edges e0 = true) →
      (∀ e0 ∈ l, ¬ i ∈ (chainFrom g fuel j e0).foundEdges) →
      impOf (processChains fuel j (g, c) l).1.edges i = impOf g.edges i := by
  induction l with
  | nil => intro g c i _ _; rfl
  | cons e0 rest ih =>
      intro g c i hl hnf
      cases hcf : chainFrom g fuel j e0 with
      | found es endn =>
          rw [processChains_cons_found fuel j g c e0 rest es endn hcf]
          have hskel1 : SkelEq g { g with edges := updateImps g.edges (bestPair g j endn) es } :=
            skel_updateImps es g (bestPair g j endn)
              (chainFrom_links g fuel j e0 es endn (hl e0 (List.mem_cons_self e0 rest)) hcf)
          have hnm0 := hnf e0 (List.mem_cons_self e0 rest)
          rw [hcf] at hnm0
          have hnotmem : ¬ i ∈ es := hnm0
          have hupd : impOf ({ g with edges := updateImps g.edges (bestPair g j endn) es } : LinkGraph).edges i
              = impOf g.edges i :=
            updateImps_impOf_notmem es g.edges (bestPair g j endn) i hnotmem
          rw [← hupd]
          apply ih
          · intro e he
            rw [← skel_isLink hskel1]
            exact hl e (List.mem_cons_of_mem e0 he)
          · intro e he
            rw [← skel_chainFrom hskel1 fuel j e]
            exact hnf e (List.mem_cons_of_mem e0 he)
      | deadEnd =>
          rw [processChains_cons_deadEnd fuel j g c e0 rest hcf]
          exact ih g c i (fun e he => hl e (List.mem_cons_of_mem e0 he))
            (fun e he => hnf e (List.mem_cons_of_mem e0 he))
      | exhausted =>
          rw [processChains_cons_exhausted fuel j g c e0 rest hcf]
          exact ih g (c + 1) i (fun e he => hl e (List.mem_cons_of_mem e0 he))
            (fun e he => hnf e (List.mem_cons_of_mem e0 he))

theorem processJunction_unreached (fuel : Nat) (g : LinkGraph) (c j i : Nat)
    (h : isJunctionB g j = true →
      ∀ e0 ∈ (nodeOf g j).edges.filter (fun k => isLink g.edges k),
        ¬ i ∈ (chainFrom g fuel j e0).foundEdges) :
    impOf (processJunction fuel (g, c) j).1.edges i = impOf g.edges i := by
  by_cases hj : isJunctionB g j = true
  · rw [processJunction_junction fuel g c j hj]
    exact processChains_unreached fuel j _ g c i
      (fun e0 he0 => (List.mem_filter.mp he0).2) (h hj)
  · rw [processJunction_skip fuel g c j (by simpa using hj)]

theorem foldJ_unreached (fuel : Nat) (J : List Nat) :
    ∀ (g : LinkGraph) (c i : Nat),
      (∀ j ∈ J, isJunctionB g j = true →
        ∀ e0 ∈ (nodeOf g j).edges.filter (fun k => isLink g.edges k),
          ¬ i ∈ (chainFrom g fuel j e0).foundEdges) →
      impOf (J.foldl (processJunction fuel) (g, c)).1.edges i = impOf g.edges i := by
  induction J with
  | nil => intro g c i _; rfl
  | cons j J ih =>
      intro g c i h
      rw [List.foldl_cons]
      have h1 : impOf (processJunction fuel (g, c) j).1.edges i = impOf g.edges i :=
        processJunction_unreached fuel g c j i (h j (List.mem_cons_self j J))
      have hskel : SkelEq g (processJunction fuel (g, c) j).1 :=
        (processJunction_master fuel g c j).1
      have htrans : ∀ j' ∈ J, isJunctionB (processJunction fuel (g, c) j).1 j' = true →
          ∀ e0 ∈ (nodeOf (processJunction fuel (g, c) j).1 j').edges.filter
              (fun k => isLink (processJunction fuel (g, c) j).1.edges k),
            ¬ i ∈ (chainFrom (processJunction fuel (g, c) j).1 fuel j' e0).foundEdges := by
        intro j' hj' hjunc e0 he0
        rw [← skel_isJunction hskel] at hjunc
        rw [← skel_filterLinks hskel] at he0
        rw [← skel_chainFrom hskel fuel j' e0]
        exact h j' (List.mem_cons_of_mem j hj') hjunc e0 he0
      calc impOf (J.foldl (processJunction fuel) (processJunction fuel (g, c) j)).1.edges i
          = impOf (J.foldl (processJunction fuel)
              ((processJunction fuel (g, c) j).1, (processJunction fuel (g, c) j).2)).1.edges i := rfl
        _ = impOf (processJunction fuel (g, c) j).1.edges i :=
            ih (processJunction fuel (g, c) j).1 (processJunction fuel (g, c) j).2 i htrans
        _ = impOf g.edges i := h1

theorem updateRestrictions_go (m : Nat → Option GraphId) (rs : List (List Nat))
    (acc : List (List GraphId)) (c : Nat) :
    rs.foldl (fun acc r =>
      match translateRestriction m r with
      | some gr => (acc.1 ++ [gr], acc.2)
      | none => (acc.1, acc.2 + 1)) (acc, c)
    = (acc ++ rs.filterMap (translateRestriction m),
       c + rs.countP (fun r => (translateRestriction m r).isNone)) := by
  induction rs generalizing acc c with
  | nil => simp
  | cons r rs ih =>
      rw [List.foldl_cons]
      cases htr : translateRestriction m r with
      | some gr =>
          simp only [htr, List.filterMap_cons, List.countP_cons]
          rw [ih]
          simp [htr]
      | none =>
          simp only [htr, List.filterMap_cons, List.countP_cons]
          rw [ih]
          simp [htr]
          omega

theorem translateRestriction_isSome (m : Nat → Option GraphId) (r : List Nat) :
    (translateRestriction m r).isSome = true ↔ ∀ x ∈ r, (m x).isSome = true := by
  induction r with
  | nil => simp [translateRestriction]
  | cons x xs ih =>
      cases hm : m x with
      | none =>
          have hnone : translateRestriction m (x :: xs) = none := by
            unfold translateRestriction
            rw [hm]
          rw [hnone]
          simp only [Option.isSome_none, Bool.false_eq_true, false_iff]
          intro hall
          have := hall x (List.mem_cons_self x xs)
          rw [hm] at this
          simp at this
      | some gid =>
          cases ht : translateRestriction m xs with
          | none =>
              have hnone : translateRestriction m (x :: xs) = none := by
                unfold translateRestriction
                rw [hm, ht]
              rw [hnone]
              simp only [Option.isSome_none, Bool.false_eq_true, false_iff]
              intro hall
              have : (translateRestriction m xs).isSome = true :=
                ih.mpr (fun y hy => hall y (List.mem_cons_of_mem x hy))
              rw [ht] at this
              simp at this
          | some gids =>
              have hsome : translateRestriction m (x :: xs) = some (gid :: gids) := by
                unfold translateRestriction
                rw [hm, ht]
              rw [hsome]
              simp only [Option.isSome_some, true_iff]
              intro y hy
              rcases List.mem_cons.mp hy with hyx | hyx
              · subst hyx
                rw [hm]
                rfl
              · have : (translateRestriction m xs).isSome = true := by
                  rw [ht]
                  rfl
                exact ih.mp this y hyx

/-- Claim C5: a restriction whose every endpoint maps through the dedup
    map is emitted with all endpoints replaced by graph identifiers (the
    output is exactly the list of successful translations, in order);
    one with a missing endpoint is absent from the output and bumps the
    defect counter exactly once (the counter is exactly the number of
    untranslatable restrictions). -/
theorem updateRestrictions_spec (m : Nat → Option GraphId) (rs : List (List Nat)) :
    (UpdateRestrictions m rs).1 = rs.filterMap (translateRestriction m)
    ∧ (UpdateRestrictions m rs).2
        = rs.countP (fun r => (translateRestriction m r).isNone)
    ∧ ∀ r : List Nat, (translateRestriction m r).isSome = true
        ↔ ∀ x ∈ r, (m x).isSome = true := by
  refine ⟨?_, ?_, translateRestriction_isSome m⟩
  · unfold UpdateRestrictions
    rw [updateRestrictions_go]
    simp
  · unfold UpdateRestrictions
    rw [updateRestrictions_go]
    simp

/-- Claim C1: adding the same source node id a second time (from a
    different way) reuses the graph identifier allocated by the first
    addition instead of allocating a new one, and the resulting Node's
    incident edge list contains the edge indices contributed by both
    ways. -/
theorem addNodeToTile_dedup (g : GraphBuilderState) (osmid : Nat) (n1 n2 : OSMNode)
    (e1 e2 : Nat) (l1 l2 : Bool) (h : g.nodes_ osmid = none) :
    (AddNodeToTile (AddNodeToTile g osmid n1 e1 l1).2 osmid n2 e2 l2).1
      = (AddNodeToTile g osmid n1 e1 l1).1
    ∧ e1 ∈ (GetNode (AddNodeToTile (AddNodeToTile g osmid n1 e1 l1).2 osmid n2 e2 l2).2
              (AddNodeToTile g osmid n1 e1 l1).1).edges
    ∧ e2 ∈ (GetNode (AddNodeToTile (AddNodeToTile g osmid n1 e1 l1).2 osmid n2 e2 l2).2
              (AddNodeToTile g osmid n1 e1 l1).1).edges := by
  simp [AddNodeToTile, GetNode, h, Node.make, Node.AddEdge,
        List.getElem?_concat_length, list_set_concat]

/-- Closed witness for claim C1 at a concrete builder state. -/
theorem addNodeToTile_dedup_witness :
    exG0.nodes_ 5 = none
    ∧ ((AddNodeToTile (AddNodeToTile exG0 5 exOsmNode 1 true).2 5 exOsmNode 2 false).1
        = (AddNodeToTile exG0 5 exOsmNode 1 true).1
      ∧ 1 ∈ (GetNode (AddNodeToTile (AddNodeToTile exG0 5 exOsmNode 1 true).2 5 exOsmNode 2 false).2
                (AddNodeToTile exG0 5 exOsmNode 1 true).1).edges
      ∧ 2 ∈ (GetNode (AddNodeToTile (AddNodeToTile exG0 5 exOsmNode 1 true).2 5 exOsmNode 2 false).2
                (AddNodeToTile exG0 5 exOsmNode 1 true).1).edges) :=
  ⟨rfl, addNodeToTile_dedup exG0 5 exOsmNode exOsmNode 1 2 true false rfl⟩

/-- Claim C3: for a node with at least one incident non-link edge (of
    importance below the sentinel), GetBestNonLinkClass returns the
    minimum importance among the node's incident non-link edges: it is
    attained by one of them and is a lower bound for all of them. -/
theorem getBestNonLinkClass_min (node : Node) (edges : List Edge)
    (hex : ∃ i ∈ node.edges, ∃ e, edges[i]? = some e ∧ e.attributes.link = false
            ∧ e.attributes.importance < kAbsurdRoadClass) :
    (∃ i ∈ node.edges, i < edges.length ∧ isLink edges i = false ∧
        impOf edges i = GetBestNonLinkClass node edges)
    ∧ ∀ i ∈ node.edges, ∀ e, edges[i]? = some e → e.attributes.link = false →
        GetBestNonLinkClass node edges ≤ e.attributes.importance := by
  obtain ⟨i0, hi0, e0, he0, hl0, himp0⟩ := hex
  have hub := bestFold_le_mem edges node.edges i0 e0 he0 hl0 kAbsurdRoadClass hi0
  constructor
  · rcases bestFold_attained edges node.edges kAbsurdRoadClass with heq | hatt
    · exfalso
      rw [heq] at hub
      exact absurd (Nat.lt_of_le_of_lt hub himp0) (lt_irrefl _)
    · exact hatt
  · intro i hi e he hl
    exact bestFold_le_mem edges node.edges i e he hl kAbsurdRoadClass hi

/-- Closed witness for claim C3 at a concrete node and edge list. -/
theorem getBestNonLinkClass_min_witness :
    (0 ∈ exNodeC3.edges ∧ exEdgesC3[0]? = some exEdgeC3
      ∧ exEdgeC3.attributes.link = false
      ∧ exEdgeC3.attributes.importance < kAbsurdRoadClass)
    ∧ ((∃ i ∈ exNodeC3.edges, i < exEdgesC3.length ∧ isLink exEdgesC3 i = false ∧
          impOf exEdgesC3 i = GetBestNonLinkClass exNodeC3 exEdgesC3)
      ∧ ∀ i ∈ exNodeC3.edges, ∀ e, exEdgesC3[i]? = some e →
          e.attributes.link = false →
          GetBestNonLinkClass exNodeC3 exEdgesC3 ≤ e.attributes.importance) :=
  ⟨⟨by decide, rfl, rfl, by decide⟩,
   getBestNonLinkClass_min exNodeC3 exEdgesC3
     ⟨0, by decide, exEdgeC3, rfl, rfl, by decide⟩⟩

/-- Claim C7: starting from a default-constructed Node, after any
    sequence of AddEdge calls the link-edge flag is set exactly when
    some added edge had link true, the non-link-edge flag exactly when
    some added edge had link false, and the edge list is the added edge
    indices in call order. -/
theorem node_addEdge_flags_union (calls : List (Nat × Bool)) :
    ((Node.default.applyAddEdges calls).link_edge = true ↔ ∃ c ∈ calls, c.2 = true)
    ∧ ((Node.default.applyAddEdges calls).non_link_edge = true ↔ ∃ c ∈ calls, c.2 = false)
    ∧ (Node.default.applyAddEdges calls).edges = calls.map Prod.fst := by
  refine ⟨?_, ?_, ?_⟩
  · rw [applyAddEdges_link]
    simp [Node.default, Node.link_edge, NodeAttributes.default, List.any_eq_true]
  · rw [applyAddEdges_non_link]
    simp [Node.default, Node.non_link_edge, NodeAttributes.default, List.any_eq_true]
  · rw [applyAddEdges_edges]
    simp [Node.default]

/-- Claim C8: make_edge leaves traffic_signal, forward_signal and
    backward_signal false, spare zero and targetnode_ default, while
    llcount is 1, importance is the way's road class (in range of the
    3-bit field), the driveability flags copy the way's and link copies
    the way's link flag. -/
theorem make_edge_fields (s : GraphId) (w ll : Nat) (way : OSMWay)
    (h : way.road_class < 8) :
    (Edge.make_edge s w ll way).attributes.traffic_signal = false
    ∧ (Edge.make_edge s w ll way).attributes.forward_signal = false
    ∧ (Edge.make_edge s w ll way).attributes.backward_signal = false
    ∧ (Edge.make_edge s w ll way).attributes.spare = 0
    ∧ (Edge.make_edge s w ll way).targetnode_ = GraphId.default
    ∧ (Edge.make_edge s w ll way).attributes.llcount = 1
    ∧ (Edge.make_edge s w ll way).attributes.importance = way.road_class
    ∧ (Edge.make_edge s w ll way).attributes.driveableforward = way.auto_forward
    ∧ (Edge.make_edge s w ll way).attributes.driveablereverse = way.auto_backward
    ∧ (Edge.make_edge s w ll way).attributes.link = way.link
    ∧ (Edge.make_edge s w ll way).sourcenode_ = s
    ∧ (Edge.make_edge s w ll way).wayindex_ = w
    ∧ (Edge.make_edge s w ll way).llindex_ = ll := by
  refine ⟨rfl, rfl, rfl, rfl, rfl, rfl, ?_, rfl, rfl, rfl, rfl, rfl, rfl⟩
  show way.road_class % 8 = way.road_class
  exact Nat.mod_eq_of_lt h

/-- Closed witness for claim C8 at a concrete way. -/
theorem make_edge_fields_witness :
    exWay.road_class < 8
    ∧ ((Edge.make_edge GraphId.default 3 4 exWay).attributes.traffic_signal = false
      ∧ (Edge.make_edge GraphId.default 3 4 exWay).attributes.forward_signal = false
      ∧ (Edge.make_edge GraphId.default 3 4 exWay).attributes.backward_signal = false
      ∧ (Edge.make_edge GraphId.default 3 4 exWay).attributes.spare = 0
      ∧ (Edge.make_edge GraphId.default 3 4 exWay).targetnode_ = GraphId.default
      ∧ (Edge.make_edge GraphId.default 3 4 exWay).attributes.llcount = 1
      ∧ (Edge.make_edge GraphId.default 3 4 exWay).attributes.importance = exWay.road_class
      ∧ (Edge.make_edge GraphId.default 3 4 exWay).attributes.driveableforward = exWay.auto_forward
      ∧ (Edge.make_edge GraphId.default 3 4 exWay).attributes.driveablereverse = exWay.auto_backward
      ∧ (Edge.make_edge GraphId.default 3 4 exWay).attributes.link = exWay.link
      ∧ (Edge.make_edge GraphId.default 3 4 exWay).sourcenode_ = GraphId.default
      ∧ (Edge.make_edge GraphId.default 3 4 exWay).wayindex_ = 3
      ∧ (Edge.make_edge GraphId.default 3 4 exWay).llindex_ = 4) :=
  ⟨by decide, make_edge_fields GraphId.default 3 4 exWay (by decide)⟩

/-- Claim C9: a default-constructed Node has an empty edge list, zero
    edge count and both ramp flags false; after n AddEdge calls the
    edge count is n. -/
theorem node_default_and_count (calls : List (Nat × Bool)) :
    Node.default.edges = []
    ∧ Node.default.edge_count = 0
    ∧ Node.default.link_edge = false
    ∧ Node.default.non_link_edge = false
    ∧ (Node.default.applyAddEdges calls).edge_count = calls.length := by
  refine ⟨rfl, rfl, rfl, rfl, ?_⟩
  unfold Node.edge_count
  rw [applyAddEdges_edges]
  simp [Node.default]

/-- Claim C10: the bitfield stores truncate — the 3-bit importance
    store keeps the value modulo 8, the 16-bit llcount store keeps it
    modulo 2^16, and make_edge therefore records the way's road class
    modulo 8. -/
theorem bitfield_truncation (a : EdgeAttributes) (v : Nat) (s : GraphId)
    (w ll : Nat) (way : OSMWay) :
    (a.set_importance v).importance = v % 2 ^ 3
    ∧ (a.set_llcount v).llcount = v % 2 ^ 16
    ∧ (Edge.make_edge s w ll way).attributes.importance = way.road_class % 2 ^ 3 := by
  refine ⟨rfl, rfl, rfl⟩

/-- Claim C2: running ReclassifyLinks a second time on the graph
    produced by a first run changes nothing — every edge (in particular
    every importance value) is exactly as after the first run. -/
theorem reclassifyLinks_idempotent (fuel : Nat) (g : LinkGraph) :
    (ReclassifyLinks fuel (ReclassifyLinks fuel g).1).1 = (ReclassifyLinks fuel g).1 :=
  foldJ_noop fuel (List.range (ReclassifyLinks fuel g).1.nodes.length)
    (ReclassifyLinks fuel g).1 0 (reclassify_stable fuel g)

/-- Claim C4: ReclassifyLinks never touches the node table, the number
    of edges, any edge attribute other than importance, or the
    importance of non-link edges (the SkelEq frame); an edge on no
    chain completed within the depth bound (every edge of a chain
    longer than the bound is such) keeps its original importance; when
    every chain walk fails within the bound the whole graph is returned
    unchanged; and when moreover some walk exhausts the bound a
    data-quality warning is recorded. -/
theorem reclassifyLinks_frame_and_bound (fuel : Nat) (g : LinkGraph) :
    SkelEq g (ReclassifyLinks fuel g).1
    ∧ (∀ i, EdgeUnreached fuel g i →
        impOf (ReclassifyLinks fuel g).1.edges i = impOf g.edges i)
    ∧ (NoChainFound fuel g → (ReclassifyLinks fuel g).1 = g)
    ∧ (NoChainFound fuel g → SomeChainExhausted fuel g →
        1 ≤ (ReclassifyLinks fuel g).2) := by
  refine ⟨reclassify_skel fuel g, ?_, ?_, ?_⟩
  · intro i hi
    exact foldJ_unreached fuel (List.range g.nodes.length) g 0 i hi
  · intro h
    exact foldJ_nofound fuel (List.range g.nodes.length) g 0 h
  · intro h hex
    obtain ⟨j, hjmem, hjunc, e0, he0, hexh⟩ := hex
    have hall := foldJ_exh fuel (List.range g.nodes.length) g 0 h j hjmem hjunc e0 he0 hexh
    simpa using hall

/-- Closed witness for claim C4: a three-edge link chain between two
    junctions with depth bound 1 — every walk exhausts the bound, the
    chain's edges keep their importance, the graph is unchanged and a
    warning is counted. -/
theorem reclassifyLinks_bound_witness :
    NoChainFound 1 exChainG ∧ SomeChainExhausted 1 exChainG
    ∧ EdgeUnreached 1 exChainG 0
    ∧ impOf (ReclassifyLinks 1 exChainG).1.edges 0 = impOf exChainG.edges 0
    ∧ (ReclassifyLinks 1 exChainG).1 = exChainG
    ∧ 1 ≤ (ReclassifyLinks 1 exChainG).2 :=
  ⟨by unfold NoChainFound; decide, by unfold SomeChainExhausted; decide,
   by unfold EdgeUnreached; decide,
   (reclassifyLinks_frame_and_bound 1 exChainG).2.1 0 (by unfold EdgeUnreached; decide),
   (reclassifyLinks_frame_and_bound 1 exChainG).2.2.1 (by unfold NoChainFound; decide),
   (reclassifyLinks_frame_and_bound 1 exChainG).2.2.2 (by unfold NoChainFound; decide)
     (by unfold SomeChainExhausted; decide)⟩

/-- Claim C6: make_edge initializes the shape-point count to 1 (hence
    at least 1), and the only post-construction mutation in this core,
    link reclassification, never changes any edge's shape-point
    count. -/
theorem llcount_invariant (s : GraphId) (w ll : Nat) (way : OSMWay) (fuel : Nat)
    (g : LinkGraph) (i : Nat) :
    (Edge.make_edge s w ll way).attributes.llcount = 1
    ∧ 1 ≤ (Edge.make_edge s w ll way).attributes.llcount
    ∧ ((ReclassifyLinks fuel g).1.edges[i]?.getD Edge.default).attributes.llcount
        = (g.edges[i]?.getD Edge.default).attributes.llcount := by
  refine ⟨rfl, Nat.le_refl 1, ?_⟩
  have hsk := reclassify_skel fuel g
  cases he : g.edges[i]? with
  | none =>
      rw [skel_getElem_none hsk i he]
  | some e =>
      obtain ⟨e', he', hs⟩ := skel_getElem_some hsk i e he
      rw [he']
      show e'.attributes.llcount = e.attributes.llcount
      exact (hs.2.2.2.2.1).symm

end Valhalla
